import Mathlib

/-!
Verification development for the plz-cli repository (a CLI assistant that
turns a natural-language request into a shell command or a git commit
message via a remote completion endpoint, gated by interactive yes/no
confirmations).

The embedding models text as `List Char`.  The regex scanner for `:\w+:`
tags, Rust `str::replace`, `str::trim` and the two workflow entry points
(`command_run_workflow`, `commit_workflow` of `src/main.rs`) are translated
directly from the source.  Side effects (process spawns, HTTP request,
prints, exits) are recorded as an explicit trace of `Effect` values.
-/

namespace PlzCli

/-- Convert a Lean string literal to the `List Char` representation used
throughout this development. -/
def str (s : String) : List Char := s.data

/-- Word character of the Rust regex `\w` class (ASCII fragment). -/
def isWordChar (c : Char) : Bool := c.isAlphanum || c = '_'

/-- Characters that can occur inside a `:word:` tag: word characters and
the colon delimiter. -/
def tagClass (c : Char) : Bool := isWordChar c || c = ':'

/-- Whitespace as stripped by Rust `str::trim` (ASCII fragment). -/
def isWS (c : Char) : Bool := c.isWhitespace

/-- Rust `str::trim`: drop leading and trailing whitespace. -/
def trimChars (s : List Char) : List Char :=
  ((s.dropWhile isWS).reverse.dropWhile isWS).reverse

/-- Boolean list-prefix test. -/
def prefixOfB : List Char → List Char → Bool
  | [], _ => true
  | _ :: _, [] => false
  | p :: ps, c :: cs => p = c && prefixOfB ps cs

/-- Boolean list-suffix test. -/
def suffixOfB (p s : List Char) : Bool := prefixOfB p.reverse s.reverse

/-- Boolean substring-occurrence test: `pat` occurs contiguously in `s`. -/
def containsSeq (pat : List Char) : List Char → Bool
  | [] => pat.isEmpty
  | c :: cs => prefixOfB pat (c :: cs) || containsSeq pat cs

/-- One scanning pass of Rust `str::replace`: replace every non-overlapping
occurrence of `pat` by `rep`, scanning left to right.  `fuel` bounds the
recursion; it is called with `fuel = s.length`, which is always enough. -/
def replaceAllAux (pat rep : List Char) : Nat → List Char → List Char
  | 0, s => s
  | _ + 1, [] => []
  | fuel + 1, c :: cs =>
    if prefixOfB pat (c :: cs) then
      rep ++ replaceAllAux pat rep fuel (List.drop pat.length (c :: cs))
    else
      c :: replaceAllAux pat rep fuel cs

/-- Rust `str::replace s pat rep` (for the nonempty patterns produced by
the tag scanner). -/
def replaceAll (s pat rep : List Char) : List Char :=
  if pat.isEmpty then s else replaceAllAux pat rep s.length s

/-- Scanner for the regex `:\w+:` used by `replace_gitmoji`
(`Regex::new(r":\w+:")`, `find_iter`): leftmost, non-overlapping matches.
`fuel` bounds the recursion; `scanTags` calls it with the input length. -/
def scanTagsAux : Nat → List Char → List (List Char)
  | 0, _ => []
  | _ + 1, [] => []
  | fuel + 1, c :: cs =>
    if c = ':' then
      let w := cs.takeWhile isWordChar
      let rest := cs.dropWhile isWordChar
      if w ≠ [] ∧ rest.head? = some ':' then
        (':' :: (w ++ [':'])) :: scanTagsAux fuel rest.tail
      else scanTagsAux fuel cs
    else scanTagsAux fuel cs

/-- All matches of `:\w+:` in `s`, in order, as found by `find_iter`. -/
def scanTags (s : List Char) : List (List Char) := scanTagsAux s.length s

/-- Split on newline characters (auxiliary for `rustLines`). -/
def splitNl : List Char → List (List Char)
  | [] => [[]]
  | c :: cs =>
    if c = '\n' then [] :: splitNl cs
    else
      match splitNl cs with
      | [] => [[c]]
      | h :: t => (c :: h) :: t

/-- Rust `str::lines()`: lines split at newlines, with no final empty line
for a trailing newline and no lines at all for the empty string. -/
def rustLines (s : List Char) : List (List Char) :=
  if s.isEmpty then []
  else
    let p := splitNl s
    if p.getLast? = some [] then p.dropLast else p

/-- Observable side effects of a run, in program order: the `git diff
--cached` spawn, the HTTP completion request, console output, an
interactive yes/no question, a `bash -c <cmd>` spawn, `process::exit`. -/
inductive Effect where
  | gitDiffCached
  | apiRequest (maxTokens : Nat) (systemPrompt userPrompt : List Char)
  | display (s : List Char)
  | askQuestion (q : List Char)
  | bashExec (cmd : List Char)
  | processExit (code : Nat)
  deriving DecidableEq

/-- The fields of a completion response the program reads: the HTTP status,
the body's `error.message`, `choices[0].text` and
`choices[0].message.content`. -/
structure ApiResponse where
  status : Nat
  errorMessage : List Char
  choice0Text : List Char
  messageContent : List Char
  deriving DecidableEq

/-- Result of one workflow run: the ordered effect trace, the process exit
code (0 for a normal return from the workflow) and the generated artifact,
when one was extracted from a successful response. -/
structure RunResult where
  trace : List Effect
  exitCode : Nat
  artifact : Option (List Char)
  deriving DecidableEq

/-- `const MAX_TOKENS: usize = 100;` of `src/main.rs`. -/
def MAX_TOKENS : Nat := 100

/-- Compile-time target OS, as tested by the `cfg!` macros in `hint_os`. -/
inductive TargetOS where
  | macos
  | linux
  | other
  deriving DecidableEq

/-- `hint_os` of `src/main.rs` and `src/prompts.rs`. -/
def hint_os : TargetOS → List Char
  | .macos => str " (on macOS)"
  | .linux => str " (on Linux)"
  | .other => str ""

/-- `cli.prompt.join(" ")`. -/
def joinWords (ws : List (List Char)) : List Char := List.intercalate [' '] ws

/-- `build_cmd_prompt` of `src/main.rs`: the (system, user) message pair of
command mode. -/
def build_cmd_prompt (os : TargetOS) (prompt : List Char) : List Char × List Char :=
  (str "system", prompt ++ hint_os os ++ str ":\n```bash\n#!/bin/bash\n")

/-- `get_cmd_user_prompt` of `src/prompts.rs` (content of the user
message). -/
def get_cmd_user_prompt (os : TargetOS) (prompt : List Char) : List Char :=
  prompt ++ hint_os os ++ str ":\n"

/-- `build_commit_prompt` of `src/main.rs`. -/
def build_commit_prompt (changes : List (List Char)) (gitmoji : Bool) :
    List Char × List Char :=
  let base := str "You are an assistant to a programmer that will be generating commit messages for the code changes, your commit messages"
    ++ str "\nYour task if to identify the key changes and prepare the commit message accordingly."
  let base := if gitmoji then base ++ str " (using gitmoji)" else base
  let system_prompt := base ++
    str "\nFollowing the format: <type> ([optional scope]): <short description>\n\n[optional body]\n[optional footer]\n"
  let user_prompt := changes.foldl (fun acc change => acc ++ change ++ str "\n")
    (str "Provide a commit message for the following changes:\n")
  (system_prompt, user_prompt)

/-- Error text surfaced on a 4xx response:
`format!("API error: \x22{error_message}\x22")`. -/
def apiClientErrorMsg (m : List Char) : List Char :=
  str "API error: \x22" ++ m ++ str "\x22"

/-- Error text surfaced on a 5xx response (the numeric part of the
`StatusCode` display). -/
def apiServerErrorMsg (status : Nat) : List Char :=
  str "OpenAI is currently experiencing problems. Status code: " ++ str (toString status)

/-- The single-quote character interpolated around the commit message. -/
def sqc : Char := Char.ofNat 39

/-- The literal shell string built in `commit_workflow`:
`"git commit -m '" + message + "'"`, with no escaping of `message`. -/
def commitCmdStr (m : List Char) : List Char :=
  str "git commit -m " ++ (sqc :: (m ++ [sqc]))

/-- The quoted awk program of `get_gitmojis`: `awk '{print $1}'`. -/
def awkQuoted : List Char := sqc :: (str "\x7bprint $1\x7d" ++ [sqc])

/-- The shell string spawned per tag lookup:
`format!("gitmoji -s {} | {}", tag, awk_cmd)`. -/
def gitmojiCmd (tag : List Char) : List Char :=
  str "gitmoji -s " ++ tag ++ str " | awk " ++ awkQuoted

/-- The tag-substitution loop of `replace_gitmoji` in `src/main.rs`, where
`get_gitmojis` prints `No gitmojis found.` and exits 1 when the lookup
process writes nothing to stdout.  `oracle tag` is the stdout of the
spawned `gitmoji -s` pipeline.  Returns the rewritten message and the
effects of the loop, or the final effects when the process exits. -/
def gitmojiLoop (oracle : List Char → List Char) :
    List (List Char) → List Char → List Effect →
    Except (List Effect) (List Char × List Effect)
  | [], msg, tr => .ok (msg, tr)
  | tag :: rest, msg, tr =>
    let out := oracle tag
    let tr2 := tr ++ [Effect.bashExec (gitmojiCmd tag)]
    if out.isEmpty then
      .error (tr2 ++ [.display (str "No gitmojis found."), .display out, .processExit 1])
    else
      let g := trimChars out
      if g.isEmpty then gitmojiLoop oracle rest msg tr2
      else gitmojiLoop oracle rest (replaceAll msg tag g) tr2

/-- `replace_gitmoji` of `src/main.rs` (calling `src/main.rs`'s
`get_gitmojis`, which exits on an empty lookup). -/
def replace_gitmoji_main (oracle : List Char → List Char) (m : List Char) :
    Except (List Effect) (List Char × List Effect) :=
  if (scanTags m).isEmpty then .ok (m, [])
  else gitmojiLoop oracle (scanTags m) m []

/-- Result of the `src/gitmoji.rs` substitution: the rewritten message,
the tags passed to the external lookup (one entry per `get_gitmojis`
call, in order) and the tags reported as failed resolutions (the
`No gitmojis found for tag` prints). -/
structure SubstResult where
  message : List Char
  calls : List (List Char)
  failures : List (List Char)
  deriving DecidableEq

/-- The tag-substitution loop of `replace_gitmoji` in `src/gitmoji.rs`,
where `get_gitmojis` returns the tag itself on an empty lookup (reporting
the failure) instead of exiting. -/
def gitmojiLoopSkip (oracle : List Char → List Char) :
    List (List Char) → SubstResult → SubstResult
  | [], st => st
  | tag :: rest, st =>
    let out := oracle tag
    let g := if out.isEmpty then tag else trimChars out
    let st2 : SubstResult :=
      { message := st.message
        calls := st.calls ++ [tag]
        failures := if out.isEmpty then st.failures ++ [tag] else st.failures }
    if g.isEmpty then gitmojiLoopSkip oracle rest st2
    else gitmojiLoopSkip oracle rest { st2 with message := replaceAll st2.message tag g }

/-- `replace_gitmoji` of `src/gitmoji.rs`. -/
def replace_gitmoji_mod (oracle : List Char → List Char) (m : List Char) :
    SubstResult :=
  if (scanTags m).isEmpty then ⟨m, [], []⟩
  else gitmojiLoopSkip oracle (scanTags m) ⟨m, [], []⟩

/-- Inputs of a command-mode run that come from outside the program: CLI
arguments, the completion response, the gate answer and the behaviour of
the spawned shell. -/
structure CmdInputs where
  promptArgs : List (List Char)
  force : Bool
  tokenLimit : Option Nat
  resp : ApiResponse
  confirmRun : Bool
  launchOk : Bool
  execSuccess : Bool
  execStdout : List Char
  execStderr : List Char

/-- The execution phase of `command_run_workflow` (the body of
`if should_run`). -/
def runPhaseCmd (pre : List Effect) (code : List Char) (inp : CmdInputs) : RunResult :=
  let t := pre ++ [Effect.bashExec code]
  if !inp.launchOk then
    ⟨t ++ [.display (str "Failed to execute the generated program."), .processExit 1], 1, some code⟩
  else if !inp.execSuccess then
    ⟨t ++ [.display (str "The program threw an error."), .display inp.execStderr, .processExit 1], 1, some code⟩
  else
    ⟨t ++ [.display (str "Command ran successfully"), .display inp.execStdout], 0, some code⟩

/-- `command_run_workflow` of `src/main.rs`: build the prompt, send the
request, validate the response, extract and display the generated command
(`choices[0].text`, trimmed), ask the run gate unless `force`, and
execute through `bash -c`. -/
def command_run_workflow (os : TargetOS) (inp : CmdInputs) : RunResult :=
  let pair := build_cmd_prompt os (joinWords inp.promptArgs)
  let maxTok := inp.tokenLimit.getD MAX_TOKENS
  let t0 : List Effect := [.apiRequest maxTok pair.1 pair.2]
  if 400 ≤ inp.resp.status ∧ inp.resp.status ≤ 499 then
    ⟨t0 ++ [.display (apiClientErrorMsg inp.resp.errorMessage), .processExit 1], 1, none⟩
  else if 500 ≤ inp.resp.status ∧ inp.resp.status ≤ 599 then
    ⟨t0 ++ [.display (apiServerErrorMsg inp.resp.status), .processExit 1], 1, none⟩
  else
    let code := trimChars inp.resp.choice0Text
    let t1 := t0 ++ [.display code]
    if inp.force then runPhaseCmd t1 code inp
    else
      let t2 := t1 ++ [.askQuestion (str ">> Run the generated program? [Y/n]")]
      if inp.confirmRun then runPhaseCmd t2 code inp
      else ⟨t2, 0, some code⟩

/-- Inputs of a commit-mode run that come from outside the program. -/
structure CommitInputs where
  diffStdout : List Char
  gitmoji : Bool
  tokenLimit : Option Nat
  resp : ApiResponse
  oracle : List Char → List Char
  acceptCommit : Bool
  generateCmd : Bool
  shouldRun : Bool
  launchOk : Bool
  execSuccess : Bool
  execStdout : List Char
  execStderr : List Char

/-- The execution phase of `commit_workflow` (the body of
`if should_run`). -/
def runPhaseCommit (pre : List Effect) (msg : List Char) (inp : CommitInputs) : RunResult :=
  let t := pre ++ [Effect.bashExec (commitCmdStr msg)]
  if !inp.launchOk then
    ⟨t ++ [.display (str "Failed to execute the generated program."), .processExit 1], 1, some msg⟩
  else if !inp.execSuccess then
    ⟨t ++ [.display (str "The program threw an error."), .display inp.execStderr, .processExit 1], 1, some msg⟩
  else
    ⟨t ++ [.display (str "Commit generated successfully")], 0, some msg⟩

/-- The three sequential confirmation gates of `commit_workflow` and the
gated construction/execution of the commit command. -/
def commitGates (pre : List Effect) (msg : List Char) (inp : CommitInputs) : RunResult :=
  let t2 := pre ++ [Effect.display msg, .askQuestion (str ">> Accept the generated commit? [Y/n]")]
  if !inp.acceptCommit then ⟨t2, 0, some msg⟩
  else
    let t3 := t2 ++ [.askQuestion (str ">> Generate a commit with the generated message? [Y/n]")]
    if !inp.generateCmd then ⟨t3, 0, some msg⟩
    else
      let t4 := t3 ++ [.display (commitCmdStr msg), .askQuestion (str ">> Run the generated commit? [Y/n]")]
      if !inp.shouldRun then ⟨t4, 0, some msg⟩
      else runPhaseCommit t4 msg inp

/-- `commit_workflow` of `src/main.rs`: collect staged changes (exiting 0
when the diff is empty), send the request, validate, extract
`choices[0].message.content` trimmed, optionally substitute gitmoji tags,
then drive the three gates and the gated `bash -c "git commit -m '...'"`
execution. -/
def commit_workflow (inp : CommitInputs) : RunResult :=
  let t0 : List Effect := [.gitDiffCached]
  if inp.diffStdout.isEmpty then
    ⟨t0 ++ [.display (str "No changes to commit."), .processExit 0], 0, none⟩
  else
    let changes := (rustLines inp.diffStdout).drop 1
    let pair := build_commit_prompt changes inp.gitmoji
    let maxTok := inp.tokenLimit.getD MAX_TOKENS
    let t1 := t0 ++ [Effect.apiRequest maxTok pair.1 pair.2]
    if 400 ≤ inp.resp.status ∧ inp.resp.status ≤ 499 then
      ⟨t1 ++ [.display (apiClientErrorMsg inp.resp.errorMessage), .processExit 1], 1, none⟩
    else if 500 ≤ inp.resp.status ∧ inp.resp.status ≤ 599 then
      ⟨t1 ++ [.display (apiServerErrorMsg inp.resp.status), .processExit 1], 1, none⟩
    else
      let commit_message := trimChars inp.resp.messageContent
      if inp.gitmoji then
        match replace_gitmoji_main inp.oracle commit_message with
        | .error tr => ⟨t1 ++ tr, 1, none⟩
        | .ok (msg, tr) => commitGates (t1 ++ tr) msg inp
      else commitGates t1 commit_message inp

/-- `get_commit_changes` of `src/git.rs` (the `Option`-returning
variant). -/
def get_commit_changes (diffStdout : List Char) : Option (List (List Char)) :=
  if diffStdout.isEmpty then none else some ((rustLines diffStdout).drop 1)

/-- `ChatCompletions::run` of `src/chat_gpt/completions.rs`, from the
response on: validate the status, then extract
`choices[0].message.content` trimmed.  An error carries the surfaced text
and the exit code. -/
def chat_completions_run (resp : ApiResponse) : Except (List Char × Nat) (List Char) :=
  if 400 ≤ resp.status ∧ resp.status ≤ 499 then
    .error (apiClientErrorMsg resp.errorMessage, 1)
  else if 500 ≤ resp.status ∧ resp.status ≤ 599 then
    .error (apiServerErrorMsg resp.status, 1)
  else .ok (trimChars resp.messageContent)

/-- The `max_tokens` value carried by the first completion request of a
trace, when one was sent. -/
def sentMaxTokens (r : RunResult) : Option Nat :=
  r.trace.findSome? fun e =>
    match e with
    | .apiRequest t _ _ => some t
    | _ => none

/-- Characters other than the single quote. -/
def notSq (c : Char) : Bool := c ≠ sqc

/-- The first single-quoted argument of a shell command string, as a POSIX
shell parses it: the characters strictly between the first single quote
and the next one. -/
def sqArg (cmd : List Char) : List Char :=
  (((cmd.dropWhile notSq).drop 1).takeWhile notSq)

/-! ### Basic lemmas about the text primitives -/

theorem prefixOfB_iff (p : List Char) : ∀ s, prefixOfB p s = true ↔ ∃ r, s = p ++ r := by
  induction p with
  | nil => intro s; simp [prefixOfB]
  | cons a ps ih =>
    intro s
    cases s with
    | nil =>
      simp only [prefixOfB, List.cons_append]
      constructor
      · intro h; cases h
      · rintro ⟨r, h⟩; cases h
    | cons c cs =>
      simp only [prefixOfB, Bool.and_eq_true, decide_eq_true_eq, ih, List.cons_append]
      constructor
      · rintro ⟨rfl, r, rfl⟩; exact ⟨r, rfl⟩
      · rintro ⟨r, h⟩
        injection h with h1 h2
        exact ⟨h1.symm, r, h2⟩

theorem prefixOfB_append_self (p r : List Char) : prefixOfB p (p ++ r) = true :=
  (prefixOfB_iff p _).mpr ⟨r, rfl⟩

theorem eq_append_drop_of_prefixOfB {p s : List Char} (h : prefixOfB p s = true) :
    s = p ++ List.drop p.length s := by
  obtain ⟨r, rfl⟩ := (prefixOfB_iff p s).mp h
  simp

theorem containsSeq_of_prefixOfB {pat s : List Char} (h : prefixOfB pat s = true) :
    containsSeq pat s = true := by
  cases s with
  | nil =>
    obtain ⟨r, hr⟩ := (prefixOfB_iff pat []).mp h
    rcases List.append_eq_nil.mp hr.symm with ⟨rfl, rfl⟩
    rfl
  | cons c cs => simp [containsSeq, h]

theorem containsSeq_append_left {pat b : List Char} (a : List Char)
    (h : containsSeq pat b = true) : containsSeq pat (a ++ b) = true := by
  induction a with
  | nil => simpa using h
  | cons x a' ih => simp [containsSeq, ih]

theorem containsSeq_nil_of_ne {pat : List Char} (h : pat ≠ []) :
    containsSeq pat [] = false := by
  cases pat with
  | nil => exact absurd rfl h
  | cons a ps => rfl

theorem containsSeq_append_elim {t : List Char} (P : Char → Bool)
    (ht : ∀ c ∈ t, P c = true) (htne : t ≠ []) :
    ∀ a b, (∀ c ∈ a, P c = false) → containsSeq t (a ++ b) = true →
      containsSeq t b = true := by
  intro a
  induction a with
  | nil => intro b _ h; simpa using h
  | cons x a' ih =>
    intro b ha h
    simp only [List.cons_append, containsSeq, Bool.or_eq_true] at h
    rcases h with h | h
    · cases t with
      | nil => exact absurd rfl htne
      | cons t0 ts =>
        simp only [prefixOfB, Bool.and_eq_true, decide_eq_true_eq] at h
        have h1 : P t0 = true := ht t0 (List.mem_cons_self _ _)
        have h2 : P x = false := ha x (List.mem_cons_self _ _)
        rw [h.1] at h1
        rw [h1] at h2
        cases h2
    · exact ih b (fun c hc => ha c (List.mem_cons_of_mem _ hc)) h

theorem dropWhile_length_le (p : Char → Bool) : ∀ l : List Char,
    (List.dropWhile p l).length ≤ l.length := by
  intro l
  induction l with
  | nil => simp [List.dropWhile]
  | cons c cs ih =>
    simp only [List.dropWhile]
    cases p c
    · simp
    · simp
      omega

theorem replaceAllAux_fuel {pat rep : List Char} (hpat : pat ≠ []) :
    ∀ f1 f2 s, s.length ≤ f1 → s.length ≤ f2 →
      replaceAllAux pat rep f1 s = replaceAllAux pat rep f2 s := by
  intro f1
  induction f1 with
  | zero =>
    intro f2 s h1 _
    have : s = [] := List.length_eq_zero.mp (Nat.le_zero.mp h1)
    subst this
    cases f2 <;> rfl
  | succ f1 ih =>
    intro f2 s h1 h2
    cases s with
    | nil => cases f2 <;> rfl
    | cons c cs =>
      cases f2 with
      | zero => simp at h2
      | succ f2 =>
        simp only [replaceAllAux]
        by_cases hp : prefixOfB pat (c :: cs) = true
        · simp only [hp, if_true]
          have hlen : (List.drop pat.length (c :: cs)).length ≤ cs.length := by
            simp only [List.length_drop, List.length_cons]
            cases pat with
            | nil => exact absurd rfl hpat
            | cons _ _ => simp
          exact congrArg (rep ++ ·)
            (ih f2 _ (Nat.le_trans hlen (Nat.succ_le_succ_iff.mp h1))
              (Nat.le_trans hlen (Nat.succ_le_succ_iff.mp h2)))
        · simp only [Bool.not_eq_true] at hp
          simp only [hp, Bool.false_eq_true, if_false]
          exact congrArg (c :: ·)
            (ih f2 cs (Nat.succ_le_succ_iff.mp h1) (Nat.succ_le_succ_iff.mp h2))

theorem replaceAllAux_self {pat : List Char} (hpat : pat ≠ []) :
    ∀ f s, s.length ≤ f → replaceAllAux pat pat f s = s := by
  intro f
  induction f with
  | zero => intro s _; rfl
  | succ f ih =>
    intro s h
    cases s with
    | nil => rfl
    | cons c cs =>
      simp only [replaceAllAux]
      by_cases hp : prefixOfB pat (c :: cs) = true
      · simp only [hp, if_true]
        have hdec := eq_append_drop_of_prefixOfB hp
        have hlen : (List.drop pat.length (c :: cs)).length ≤ cs.length := by
          simp only [List.length_drop, List.length_cons]
          cases pat with
          | nil => exact absurd rfl hpat
          | cons _ _ => simp
        rw [ih _ (Nat.le_trans hlen (Nat.succ_le_succ_iff.mp h))]
        exact hdec.symm
      · simp only [Bool.not_eq_true] at hp
        simp only [hp, Bool.false_eq_true, if_false]
        exact congrArg (c :: ·) (ih cs (Nat.succ_le_succ_iff.mp h))

/-- Replacing a pattern by itself is the identity (Rust
`s.replace(t, t) == s`). -/
theorem replaceAll_self (s pat : List Char) : replaceAll s pat pat = s := by
  unfold replaceAll
  by_cases hp : pat.isEmpty
  · simp [hp]
  · have hpat : pat ≠ [] := by
      cases pat
      · simp at hp
      · exact List.cons_ne_nil _ _
    simp only [hp, Bool.false_eq_true, if_false]
    exact replaceAllAux_self hpat _ _ (Nat.le_refl _)

theorem replaceAllAux_of_not_contains {pat rep : List Char} :
    ∀ f s, containsSeq pat s = false → replaceAllAux pat rep f s = s := by
  intro f
  induction f with
  | zero => intro s _; rfl
  | succ f ih =>
    intro s h
    cases s with
    | nil => rfl
    | cons c cs =>
      simp only [containsSeq, Bool.or_eq_false_iff] at h
      simp only [replaceAllAux, h.1, Bool.false_eq_true, if_false]
      exact congrArg (c :: ·) (ih cs h.2)

/-- Rust `s.replace(pat, rep) == s` when `pat` does not occur in `s`. -/
theorem replaceAll_of_not_contains {s pat rep : List Char}
    (h : containsSeq pat s = false) : replaceAll s pat rep = s := by
  unfold replaceAll
  by_cases hp : pat.isEmpty
  · simp [hp]
  · have hpat : pat ≠ [] := by
      cases pat
      · simp at hp
      · exact List.cons_ne_nil _ _
    simp only [hp, Bool.false_eq_true, if_false]
    exact replaceAllAux_of_not_contains _ _ h

theorem replaceAllAux_pfx_transfer {pat rep : List Char} (P : Char → Bool)
    (hpatP : ∀ c ∈ pat, P c = true) (hrepP : ∀ c ∈ rep, P c = false)
    (hrep : rep ≠ []) :
    ∀ f s u, u ≠ [] → (∃ v, v ++ u = pat) →
      prefixOfB u (replaceAllAux pat rep f s) = true → prefixOfB u s = true := by
  intro f
  induction f with
  | zero => intro s u _ _ h; exact h
  | succ f ih =>
    intro s u hu hsuf h
    cases s with
    | nil =>
      obtain ⟨r, hr⟩ := (prefixOfB_iff u _).mp h
      rcases List.append_eq_nil.mp hr.symm with ⟨rfl, -⟩
      exact absurd rfl hu
    | cons c cs =>
      by_cases hp : prefixOfB pat (c :: cs) = true
      · exfalso
        simp only [replaceAllAux, hp, if_true] at h
        cases u with
        | nil => exact hu rfl
        | cons u0 us =>
          have hu0 : P u0 = true := by
            obtain ⟨v, hv⟩ := hsuf
            exact hpatP u0 (hv ▸ List.mem_append_right v (List.mem_cons_self _ _))
          cases rep with
          | nil => exact hrep rfl
          | cons r0 rs =>
            simp only [List.cons_append, prefixOfB, Bool.and_eq_true,
              decide_eq_true_eq] at h
            have hr0 : P r0 = false := hrepP r0 (List.mem_cons_self _ _)
            rw [h.1] at hu0
            rw [hu0] at hr0
            cases hr0
      · simp only [Bool.not_eq_true] at hp
        simp only [replaceAllAux, hp, Bool.false_eq_true, if_false] at h
        cases u with
        | nil => exact absurd rfl hu
        | cons u0 us =>
          simp only [prefixOfB, Bool.and_eq_true, decide_eq_true_eq] at h ⊢
          refine ⟨h.1, ?_⟩
          cases us with
          | nil => simp [prefixOfB]
          | cons u1 us' =>
            obtain ⟨v, hv⟩ := hsuf
            refine ih cs (u1 :: us') (List.cons_ne_nil _ _) ⟨v ++ [u0], ?_⟩ h.2
            rw [List.append_assoc, List.singleton_append, hv]

theorem replaceAllAux_no_occurrence {pat rep : List Char} (P : Char → Bool)
    (hpatP : ∀ c ∈ pat, P c = true) (hrepP : ∀ c ∈ rep, P c = false)
    (hpat : pat ≠ []) (hrep : rep ≠ []) :
    ∀ f s, s.length ≤ f → containsSeq pat (replaceAllAux pat rep f s) = false := by
  intro f
  induction f with
  | zero =>
    intro s h
    have : s = [] := List.length_eq_zero.mp (Nat.le_zero.mp h)
    subst this
    exact containsSeq_nil_of_ne hpat
  | succ f ih =>
    intro s h
    cases s with
    | nil => exact containsSeq_nil_of_ne hpat
    | cons c cs =>
      by_cases hp : prefixOfB pat (c :: cs) = true
      · simp only [replaceAllAux, hp, if_true]
        have hlen : (List.drop pat.length (c :: cs)).length ≤ f := by
          simp only [List.length_drop, List.length_cons]
          cases pat with
          | nil => exact absurd rfl hpat
          | cons _ _ =>
            simp only [List.length_cons, List.length_cons] at h ⊢
            omega
        have hrec := ih _ hlen
        by_contra hc
        rw [Bool.not_eq_false] at hc
        have := containsSeq_append_elim P hpatP hpat rep _ hrepP hc
        rw [hrec] at this
        cases this
      · simp only [Bool.not_eq_true] at hp
        simp only [replaceAllAux, hp, Bool.false_eq_true, if_false]
        have h2 : containsSeq pat (replaceAllAux pat rep f cs) = false :=
          ih cs (Nat.succ_le_succ_iff.mp h)
        have h1 : prefixOfB pat (c :: replaceAllAux pat rep f cs) = false := by
          by_contra hc
          rw [Bool.not_eq_false] at hc
          have heq : (c :: replaceAllAux pat rep f cs) =
              replaceAllAux pat rep (f + 1) (c :: cs) := by
            simp [replaceAllAux, hp]
          rw [heq] at hc
          have := replaceAllAux_pfx_transfer P hpatP hrepP hrep (f + 1) (c :: cs)
            pat hpat ⟨[], rfl⟩ hc
          rw [hp] at this
          cases this
        simp [containsSeq, h1, h2]

/-- After `s.replace(pat, rep)` no occurrence of `pat` remains, provided
the characters of `pat` and of `rep` lie in disjoint classes (`pat` inside
`P`, `rep` outside). -/
theorem replaceAll_no_occurrence {s pat rep : List Char} (P : Char → Bool)
    (hpatP : ∀ c ∈ pat, P c = true) (hrepP : ∀ c ∈ rep, P c = false)
    (hpat : pat ≠ []) (hrep : rep ≠ []) :
    containsSeq pat (replaceAll s pat rep) = false := by
  unfold replaceAll
  have hne : pat.isEmpty = false := by
    cases pat
    · exact absurd rfl hpat
    · rfl
  simp only [hne, Bool.false_eq_true, if_false]
  exact replaceAllAux_no_occurrence P hpatP hrepP hpat hrep s.length s (Nat.le_refl _)

theorem takeWhile_middle {p : Char → Bool} {a : List Char} {d : Char}
    (ha : ∀ c ∈ a, p c = true) (hd : p d = false) (b : List Char) :
    List.takeWhile p (a ++ d :: b) = a ∧ List.dropWhile p (a ++ d :: b) = d :: b := by
  induction a with
  | nil => simp [List.takeWhile, List.dropWhile, hd]
  | cons x a' ih =>
    have hx : p x = true := ha x (List.mem_cons_self _ _)
    have ih' := ih (fun c hc => ha c (List.mem_cons_of_mem _ hc))
    simp [List.takeWhile, List.dropWhile, hx, ih'.1, ih'.2]

theorem scan_split {cs : List Char}
    (hhead : (cs.dropWhile isWordChar).head? = some ':') :
    ':' :: cs =
      (':' :: (cs.takeWhile isWordChar ++ [':'])) ++ (cs.dropWhile isWordChar).tail := by
  have hdw : cs.dropWhile isWordChar = ':' :: (cs.dropWhile isWordChar).tail := by
    cases hd : cs.dropWhile isWordChar with
    | nil => rw [hd] at hhead; simp at hhead
    | cons d ds =>
      rw [hd] at hhead
      simp only [List.head?_cons, Option.some.injEq] at hhead
      simp [hhead]
  conv_lhs => rw [← List.takeWhile_append_dropWhile isWordChar cs, hdw]
  simp

theorem scanTagsAux_shape :
    ∀ f s, ∀ m ∈ scanTagsAux f s, ∃ w, w ≠ [] ∧ (∀ c ∈ w, isWordChar c = true) ∧
      m = ':' :: (w ++ [':']) := by
  intro f
  induction f with
  | zero => intro s m hm; simp [scanTagsAux] at hm
  | succ f ih =>
    intro s m hm
    cases s with
    | nil => simp [scanTagsAux] at hm
    | cons c cs =>
      simp only [scanTagsAux] at hm
      by_cases hc : c = ':'
      · rw [if_pos hc] at hm
        by_cases hw : cs.takeWhile isWordChar ≠ [] ∧
            (cs.dropWhile isWordChar).head? = some ':'
        · rw [if_pos hw] at hm
          rcases List.mem_cons.mp hm with rfl | hm'
          · exact ⟨cs.takeWhile isWordChar, hw.1,
              fun x hx => List.mem_takeWhile_imp hx, rfl⟩
          · exact ih _ m hm'
        · rw [if_neg hw] at hm
          exact ih cs m hm
      · rw [if_neg hc] at hm
        exact ih cs m hm

theorem scanTagsAux_contains :
    ∀ f s, ∀ m ∈ scanTagsAux f s, containsSeq m s = true := by
  intro f
  induction f with
  | zero => intro s m hm; simp [scanTagsAux] at hm
  | succ f ih =>
    intro s m hm
    cases s with
    | nil => simp [scanTagsAux] at hm
    | cons c cs =>
      simp only [scanTagsAux] at hm
      by_cases hc : c = ':'
      · rw [if_pos hc] at hm
        subst hc
        by_cases hw : cs.takeWhile isWordChar ≠ [] ∧
            (cs.dropWhile isWordChar).head? = some ':'
        · rw [if_pos hw] at hm
          rcases List.mem_cons.mp hm with rfl | hm'
          · apply containsSeq_of_prefixOfB
            rw [scan_split hw.2]
            exact prefixOfB_append_self _ _
          · have htail := ih _ m hm'
            rw [scan_split hw.2]
            exact containsSeq_append_left _ htail
        · rw [if_neg hw] at hm
          have := ih cs m hm
          exact containsSeq_append_left [':'] this
      · rw [if_neg hc] at hm
        have := ih cs m hm
        exact containsSeq_append_left [c] this

theorem scanTagsAux_nil_no_tag :
    ∀ f s, s.length ≤ f → scanTagsAux f s = [] →
      ∀ w, w ≠ [] → (∀ c ∈ w, isWordChar c = true) →
        containsSeq (':' :: (w ++ [':'])) s = false := by
  intro f
  induction f with
  | zero =>
    intro s hlen _ w hw _
    have : s = [] := List.length_eq_zero.mp (Nat.le_zero.mp hlen)
    subst this
    exact containsSeq_nil_of_ne (List.cons_ne_nil _ _)
  | succ f ih =>
    intro s hlen h w hwne hword
    cases s with
    | nil => exact containsSeq_nil_of_ne (List.cons_ne_nil _ _)
    | cons c cs =>
      simp only [scanTagsAux] at h
      have hlen' : cs.length ≤ f := Nat.succ_le_succ_iff.mp hlen
      by_cases hc : c = ':'
      · rw [if_pos hc] at h
        subst hc
        by_cases hw : cs.takeWhile isWordChar ≠ [] ∧
            (cs.dropWhile isWordChar).head? = some ':'
        · rw [if_pos hw] at h
          cases h
        · rw [if_neg hw] at h
          have h2 := ih cs hlen' h w hwne hword
          have h1 : prefixOfB (':' :: (w ++ [':'])) (':' :: cs) = false := by
            by_contra hcpre
            rw [Bool.not_eq_false] at hcpre
            simp only [prefixOfB, Bool.and_eq_true, decide_eq_true_eq] at hcpre
            obtain ⟨r, hr⟩ := (prefixOfB_iff _ _).mp hcpre.2
            rw [List.append_assoc, List.singleton_append] at hr
            have hco : isWordChar ':' = false := by decide
            have hmid := takeWhile_middle hword hco r
            rw [← hr] at hmid
            exact hw ⟨hmid.1 ▸ hwne, by rw [hmid.2]; rfl⟩
          simp [containsSeq, h1, h2]
      · rw [if_neg hc] at h
        have h2 := ih cs hlen' h w hwne hword
        have h1 : prefixOfB (':' :: (w ++ [':'])) (c :: cs) = false := by
          by_contra hcpre
          rw [Bool.not_eq_false] at hcpre
          simp only [prefixOfB, Bool.and_eq_true, decide_eq_true_eq] at hcpre
          exact hc hcpre.1.symm
        simp [containsSeq, h1, h2]

/-- Every match returned by the tag scanner has the shape
`':' :: w ++ [':']` with `w` a nonempty run of word characters. -/
theorem scanTags_shape {s m : List Char} (hm : m ∈ scanTags s) :
    ∃ w, w ≠ [] ∧ (∀ c ∈ w, isWordChar c = true) ∧ m = ':' :: (w ++ [':']) :=
  scanTagsAux_shape _ s m hm

/-- Every match returned by the tag scanner occurs in the scanned text. -/
theorem scanTags_contains {s m : List Char} (hm : m ∈ scanTags s) :
    containsSeq m s = true :=
  scanTagsAux_contains _ s m hm

/-- When the scanner finds nothing, no tag-shaped substring occurs in the
text. -/
theorem scanTags_nil_no_tag {s : List Char} (h : scanTags s = []) :
    ∀ w, w ≠ [] → (∀ c ∈ w, isWordChar c = true) →
      containsSeq (':' :: (w ++ [':'])) s = false :=
  scanTagsAux_nil_no_tag _ s (Nat.le_refl _) h

/-- Characters of a scanned tag lie in the tag character class, and the
tag is nonempty. -/
theorem scanTags_tagClass {s m : List Char} (hm : m ∈ scanTags s) :
    m ≠ [] ∧ ∀ c ∈ m, tagClass c = true := by
  obtain ⟨w, _, hword, rfl⟩ := scanTags_shape hm
  refine ⟨List.cons_ne_nil _ _, ?_⟩
  intro c hc
  rcases List.mem_cons.mp hc with rfl | hc'
  · simp [tagClass]
  · rcases List.mem_append.mp hc' with hcw | hcolon
    · simp [tagClass, hword c hcw]
    · rcases List.mem_singleton.mp hcolon with rfl
      simp [tagClass]

/-! ### Lemmas about the substitution loops -/

theorem gitmojiLoopSkip_calls (oracle : List Char → List Char) :
    ∀ tags st, (gitmojiLoopSkip oracle tags st).calls = st.calls ++ tags := by
  intro tags
  induction tags with
  | nil => intro st; simp [gitmojiLoopSkip]
  | cons tag rest ih =>
    intro st
    simp only [gitmojiLoopSkip]
    split
    · split
      · simp [ih]
      · simp [ih]
    · split
      · simp [ih]
      · simp [ih]

theorem gitmojiLoopSkip_failures (oracle : List Char → List Char) :
    ∀ tags st, (gitmojiLoopSkip oracle tags st).failures =
      st.failures ++ tags.filter (fun t => (oracle t).isEmpty) := by
  intro tags
  induction tags with
  | nil => intro st; simp [gitmojiLoopSkip]
  | cons tag rest ih =>
    intro st
    simp only [gitmojiLoopSkip, List.filter_cons]
    by_cases ho : (oracle tag).isEmpty = true
    · simp only [ho, if_true]
      split
      · simp [ih]
      · simp [ih]
    · simp only [Bool.not_eq_true] at ho
      simp only [ho, Bool.false_eq_true, if_false]
      split
      · simp [ih]
      · simp [ih]
      

theorem gitmojiLoopSkip_message_id (oracle : List Char → List Char) :
    ∀ tags st, (∀ t ∈ tags, trimChars (oracle t) = []) →
      (gitmojiLoopSkip oracle tags st).message = st.message := by
  intro tags
  induction tags with
  | nil => intro st _; rfl
  | cons tag rest ih =>
    intro st hall
    have htag : trimChars (oracle tag) = [] := hall tag (List.mem_cons_self _ _)
    have hrest : ∀ t ∈ rest, trimChars (oracle t) = [] :=
      fun t ht => hall t (List.mem_cons_of_mem _ ht)
    simp only [gitmojiLoopSkip]
    by_cases ho : (oracle tag).isEmpty = true
    · simp only [ho, if_true]
      by_cases htm : tag.isEmpty = true
      · simp only [htm, if_true]
        exact ih _ hrest
      · simp only [htm, Bool.false_eq_true, if_false]
        rw [ih _ hrest]
        exact replaceAll_self _ _
    · simp only [Bool.not_eq_true] at ho
      simp only [ho, Bool.false_eq_true, if_false, htag]
      simp only [List.isEmpty_nil, if_true]
      exact ih _ hrest

/-- `replace_gitmoji` of `src/gitmoji.rs` invokes the external lookup once
per match occurrence, in match order. -/
theorem replace_gitmoji_mod_calls (oracle : List Char → List Char) (m : List Char) :
    (replace_gitmoji_mod oracle m).calls = scanTags m := by
  unfold replace_gitmoji_mod
  by_cases hs : (scanTags m).isEmpty = true
  · rw [List.isEmpty_iff] at hs
    simp [hs]
  · simp only [hs, Bool.false_eq_true, if_false]
    rw [gitmojiLoopSkip_calls]
    rfl

/-- `replace_gitmoji` of `src/gitmoji.rs` reports exactly the tags whose
lookup produced no output. -/
theorem replace_gitmoji_mod_failures (oracle : List Char → List Char) (m : List Char) :
    (replace_gitmoji_mod oracle m).failures =
      (scanTags m).filter (fun t => (oracle t).isEmpty) := by
  unfold replace_gitmoji_mod
  by_cases hs : (scanTags m).isEmpty = true
  · rw [List.isEmpty_iff] at hs
    simp [hs]
  · simp only [hs, Bool.false_eq_true, if_false]
    rw [gitmojiLoopSkip_failures]
    rfl

/-- When every tag resolves to nothing (after trimming), the message of
the `src/gitmoji.rs` substitution is returned verbatim. -/
theorem replace_gitmoji_mod_message_id {oracle : List Char → List Char} {m : List Char}
    (h : ∀ t ∈ scanTags m, trimChars (oracle t) = []) :
    (replace_gitmoji_mod oracle m).message = m := by
  unfold replace_gitmoji_mod
  by_cases hs : (scanTags m).isEmpty = true
  · simp [hs]
  · simp only [hs, Bool.false_eq_true, if_false]
    exact gitmojiLoopSkip_message_id oracle _ _ h

theorem gitmojiLoop_ok_effects (oracle : List Char → List Char) :
    ∀ tags msg tr msg' tr', gitmojiLoop oracle tags msg tr = .ok (msg', tr') →
      ∀ e ∈ tr', e ∈ tr ∨ ∃ t, e = Effect.bashExec (gitmojiCmd t) := by
  intro tags
  induction tags with
  | nil =>
    intro msg tr msg' tr' h e he
    simp only [gitmojiLoop, Except.ok.injEq, Prod.mk.injEq] at h
    rw [← h.2] at he
    exact Or.inl he
  | cons tag rest ih =>
    intro msg tr msg' tr' h e he
    simp only [gitmojiLoop] at h
    by_cases ho : (oracle tag).isEmpty = true
    · simp only [ho, if_true] at h
      cases h
    · simp only [Bool.not_eq_true] at ho
      simp only [ho, Bool.false_eq_true, if_false] at h
      have step : ∀ msg0, gitmojiLoop oracle rest msg0
            (tr ++ [Effect.bashExec (gitmojiCmd tag)]) = .ok (msg', tr') →
          e ∈ tr ∨ ∃ t, e = Effect.bashExec (gitmojiCmd t) := by
        intro msg0 h0
        rcases ih msg0 _ msg' tr' h0 e he with hmem | hex
        · rcases List.mem_append.mp hmem with hmem' | hsing
          · exact Or.inl hmem'
          · rcases List.mem_singleton.mp hsing with rfl
            exact Or.inr ⟨tag, rfl⟩
        · exact Or.inr hex
      by_cases hg : (trimChars (oracle tag)).isEmpty = true
      · simp only [hg, if_true] at h
        exact step msg h
      · simp only [hg, Bool.false_eq_true, if_false] at h
        exact step _ h

theorem gitmojiLoop_error_effects (oracle : List Char → List Char) :
    ∀ tags msg tr tr', gitmojiLoop oracle tags msg tr = .error tr' →
      ∀ e ∈ tr', e ∈ tr ∨ (∃ t, e = Effect.bashExec (gitmojiCmd t)) ∨
        (∃ x, e = Effect.display x) ∨ e = Effect.processExit 1 := by
  intro tags
  induction tags with
  | nil =>
    intro msg tr tr' h
    simp only [gitmojiLoop] at h
    cases h
  | cons tag rest ih =>
    intro msg tr tr' h e he
    simp only [gitmojiLoop] at h
    by_cases ho : (oracle tag).isEmpty = true
    · simp only [ho, if_true, Except.error.injEq] at h
      rw [← h] at he
      rcases List.mem_append.mp he with h1 | h2
      · rcases List.mem_append.mp h1 with h3 | h4
        · exact Or.inl h3
        · rcases List.mem_singleton.mp h4 with rfl
          exact Or.inr (Or.inl ⟨tag, rfl⟩)
      · rcases List.mem_cons.mp h2 with rfl | h5
        · exact Or.inr (Or.inr (Or.inl ⟨_, rfl⟩))
        · rcases List.mem_cons.mp h5 with rfl | h6
          · exact Or.inr (Or.inr (Or.inl ⟨_, rfl⟩))
          · rcases List.mem_singleton.mp h6 with rfl
            exact Or.inr (Or.inr (Or.inr rfl))
    · simp only [Bool.not_eq_true] at ho
      simp only [ho, Bool.false_eq_true, if_false] at h
      have step : ∀ msg0, gitmojiLoop oracle rest msg0
            (tr ++ [Effect.bashExec (gitmojiCmd tag)]) = .error tr' →
          e ∈ tr ∨ (∃ t, e = Effect.bashExec (gitmojiCmd t)) ∨
            (∃ x, e = Effect.display x) ∨ e = Effect.processExit 1 := by
        intro msg0 h0
        rcases ih msg0 _ tr' h0 e he with hmem | hrest
        · rcases List.mem_append.mp hmem with hmem' | hsing
          · exact Or.inl hmem'
          · rcases List.mem_singleton.mp hsing with rfl
            exact Or.inr (Or.inl ⟨tag, rfl⟩)
        · exact Or.inr hrest
      by_cases hg : (trimChars (oracle tag)).isEmpty = true
      · simp only [hg, if_true] at h
        exact step msg h
      · simp only [hg, Bool.false_eq_true, if_false] at h
        exact step _ h

/-! ### Helper lemmas for the workflow theorems -/

theorem dropWhile_all_append {p : Char → Bool} {a : List Char}
    (ha : ∀ c ∈ a, p c = true) (b : List Char) :
    List.dropWhile p (a ++ b) = List.dropWhile p b := by
  induction a with
  | nil => rfl
  | cons x a' ih =>
    have hx : p x = true := ha x (List.mem_cons_self _ _)
    simp only [List.cons_append, List.dropWhile_cons, hx, if_true]
    exact ih (fun c hc => ha c (List.mem_cons_of_mem _ hc))

theorem takeWhile_all_append {p : Char → Bool} {a : List Char}
    (ha : ∀ c ∈ a, p c = true) (b : List Char) :
    List.takeWhile p (a ++ b) = a ++ List.takeWhile p b := by
  induction a with
  | nil => rfl
  | cons x a' ih =>
    have hx : p x = true := ha x (List.mem_cons_self _ _)
    simp only [List.cons_append, List.takeWhile_cons, hx, if_true]
    rw [ih (fun c hc => ha c (List.mem_cons_of_mem _ hc))]

theorem takeWhile_append_of_stop {p : Char → Bool} {a : List Char}
    (ha : ∃ c ∈ a, p c = false) (b : List Char) :
    List.takeWhile p (a ++ b) = List.takeWhile p a := by
  induction a with
  | nil => obtain ⟨c, hc, -⟩ := ha; cases hc
  | cons x a' ih =>
    simp only [List.cons_append, List.takeWhile_cons]
    cases hx : p x with
    | false => simp
    | true =>
      obtain ⟨c, hc, hcp⟩ := ha
      rcases List.mem_cons.mp hc with rfl | hc'
      · rw [hx] at hcp
        cases hcp
      · simp only [if_true]
        rw [ih ⟨c, hc', hcp⟩]

theorem sqArg_commitCmdStr_of_no_quote {m : List Char}
    (h : ∀ c ∈ m, notSq c = true) : sqArg (commitCmdStr m) = m := by
  unfold sqArg commitCmdStr
  have hpre : ∀ c ∈ str "git commit -m ", notSq c = true := by decide
  rw [dropWhile_all_append hpre]
  have hsq : notSq sqc = false := by decide
  simp only [List.dropWhile, hsq, List.drop_succ_cons, List.drop_zero]
  rw [takeWhile_all_append h, List.takeWhile, hsq]
  simp

theorem sqArg_commitCmdStr_of_quote {m : List Char} (h : sqc ∈ m) :
    sqArg (commitCmdStr m) ≠ m := by
  unfold sqArg commitCmdStr
  have hpre : ∀ c ∈ str "git commit -m ", notSq c = true := by decide
  rw [dropWhile_all_append hpre]
  have hsq : notSq sqc = false := by decide
  simp only [List.dropWhile, hsq, List.drop_succ_cons, List.drop_zero]
  rw [takeWhile_append_of_stop ⟨sqc, h, hsq⟩]
  intro heq
  have := List.takeWhile_eq_self_iff.mp heq sqc h
  rw [hsq] at this
  cases this

theorem append_ne_of_ne_front (a b x y : List Char)
    (hlen : a.length = b.length) (hne : a ≠ b) : a ++ x ≠ b ++ y := by
  induction a generalizing b with
  | nil =>
    cases b with
    | nil => exact absurd rfl hne
    | cons _ _ => simp at hlen
  | cons c a' ih =>
    cases b with
    | nil => simp at hlen
    | cons d b' =>
      intro h
      simp only [List.cons_append, List.cons.injEq] at h
      by_cases hcd : c = d
      · subst hcd
        have hab : a' ≠ b' := fun hh => hne (by rw [hh])
        exact ih b' (by simpa using hlen) hab h.2
      · exact hcd h.1

/-- A gitmoji lookup command is never the commit command: the two strings
differ at their fourth character. -/
theorem gitmojiCmd_ne_commitCmdStr (t m : List Char) :
    gitmojiCmd t ≠ commitCmdStr m := by
  have e1 : gitmojiCmd t =
      str "gitm" ++ (str "oji -s " ++ (t ++ (str " | awk " ++ awkQuoted))) := by
    simp only [gitmojiCmd]
    rw [show str "gitmoji -s " = str "gitm" ++ str "oji -s " by decide]
    simp [List.append_assoc]
  have e2 : commitCmdStr m =
      str "git " ++ (str "commit -m " ++ (sqc :: (m ++ [sqc]))) := by
    simp only [commitCmdStr]
    rw [show str "git commit -m " = str "git " ++ str "commit -m " by decide]
    simp [List.append_assoc]
  rw [e1, e2]
  exact append_ne_of_ne_front _ _ _ _ (by decide) (by decide)

theorem suffixOfB_append_self (a b : List Char) : suffixOfB a (b ++ a) = true := by
  unfold suffixOfB
  rw [List.reverse_append]
  exact prefixOfB_append_self _ _

/-- Every `commitGates` result records the message as the artifact. -/
theorem commitGates_artifact (pre : List Effect) (msg : List Char) (inp : CommitInputs) :
    (commitGates pre msg inp).artifact = some msg := by
  unfold commitGates runPhaseCommit
  split_ifs <;> rfl

/-- The commit command reaches the shell from `commitGates` only when all
three gates were answered yes. -/
theorem commitGates_exec_mem {pre : List Effect} {msg m : List Char} {inp : CommitInputs}
    (h : Effect.bashExec (commitCmdStr m) ∈ (commitGates pre msg inp).trace) :
    Effect.bashExec (commitCmdStr m) ∈ pre ∨
      (inp.acceptCommit = true ∧ inp.generateCmd = true ∧ inp.shouldRun = true) := by
  unfold commitGates runPhaseCommit at h
  split_ifs at h with h1 h2 h3 h4 h5
  · rcases List.mem_append.mp h with h | h
    · exact Or.inl h
    · simp at h
  · rcases List.mem_append.mp h with h | h
    · rcases List.mem_append.mp h with h | h
      · exact Or.inl h
      · simp at h
    · simp at h
  · rcases List.mem_append.mp h with h | h
    · rcases List.mem_append.mp h with h | h
      · rcases List.mem_append.mp h with h | h
        · exact Or.inl h
        · simp at h
      · simp at h
    · simp at h
  all_goals
    refine Or.inr ⟨?_, ?_, ?_⟩
    · revert h1
      cases inp.acceptCommit <;> simp
    · revert h2
      cases inp.generateCmd <;> simp
    · revert h3
      cases inp.shouldRun <;> simp

/-- When all three gates are answered yes, `commitGates` passes the commit
command to the shell. -/
theorem commitGates_exec_of_yes (pre : List Effect) (msg : List Char) (inp : CommitInputs)
    (ha : inp.acceptCommit = true) (hg : inp.generateCmd = true) (hr : inp.shouldRun = true) :
    Effect.bashExec (commitCmdStr msg) ∈ (commitGates pre msg inp).trace := by
  unfold commitGates runPhaseCommit
  simp only [ha, hg, hr, Bool.not_true, Bool.false_eq_true, if_false]
  split_ifs <;> simp

/-- `commitGates` only appends effects after its prefix trace. -/
theorem commitGates_trace_shift (pre : List Effect) (msg : List Char) (inp : CommitInputs) :
    (commitGates pre msg inp).trace = pre ++ (commitGates [] msg inp).trace := by
  unfold commitGates runPhaseCommit
  split_ifs <;> simp

/-! ### Claim theorems -/

/-- C10: for every input text containing no substring matching `:word:`,
tag substitution returns the input unchanged and performs no external
lookup call — in both the `src/gitmoji.rs` and `src/main.rs` variants. -/
theorem claim_C10_no_tags_unchanged (oracle : List Char → List Char) (m : List Char)
    (h : ∀ w, w ≠ [] → (∀ c ∈ w, isWordChar c = true) →
      containsSeq (':' :: (w ++ [':'])) m = false) :
    replace_gitmoji_mod oracle m = ⟨m, [], []⟩ ∧
      replace_gitmoji_main oracle m = .ok (m, []) := by
  have hscan : scanTags m = [] := by
    cases hs : scanTags m with
    | nil => rfl
    | cons t ts =>
      have hmem : t ∈ scanTags m := by rw [hs]; exact List.mem_cons_self _ _
      obtain ⟨w, hwne, hword, rfl⟩ := scanTags_shape hmem
      have hocc := scanTags_contains hmem
      rw [h w hwne hword] at hocc
      cases hocc
  constructor
  · unfold replace_gitmoji_mod
    rw [hscan]
    rfl
  · unfold replace_gitmoji_main
    rw [hscan]
    rfl

/-- C10 witness: a concrete tagless text flows through both substitution
variants unchanged, with no lookup calls. -/
theorem claim_C10_witness :
    replace_gitmoji_mod (fun _ => str "X") (str "fix null check") =
      ⟨str "fix null check", [], []⟩ ∧
    replace_gitmoji_main (fun _ => str "X") (str "fix null check") =
      .ok (str "fix null check", []) :=
  claim_C10_no_tags_unchanged (fun _ => str "X") (str "fix null check")
    (scanTags_nil_no_tag (by decide))

/-- C5 (amended): in the `src/gitmoji.rs` variant an unresolved tag (empty
lookup output) is reported and left verbatim, and processing continues
through all tags with no error termination; in the `src/main.rs` variant an
empty lookup output instead terminates the process with exit code 1. -/
theorem claim_C5_unresolved_tags (oracle : List Char → List Char) (m t : List Char)
    (rest : List (List Char)) :
    (replace_gitmoji_mod oracle m).failures =
      (scanTags m).filter (fun u => (oracle u).isEmpty) ∧
    ((∀ u ∈ scanTags m, trimChars (oracle u) = []) →
      (replace_gitmoji_mod oracle m).message = m) ∧
    (scanTags m = t :: rest → oracle t = [] →
      ∃ tr, replace_gitmoji_main oracle m = .error tr ∧ Effect.processExit 1 ∈ tr) := by
  refine ⟨replace_gitmoji_mod_failures oracle m,
    fun hall => replace_gitmoji_mod_message_id hall, ?_⟩
  intro hscan hout
  unfold replace_gitmoji_main
  rw [hscan]
  simp only [List.isEmpty_cons, Bool.false_eq_true, if_false, gitmojiLoop, hout,
    List.isEmpty_nil, if_true]
  exact ⟨_, rfl, by simp⟩

/-- C5 witness: with a lookup that returns nothing, the tag `:bug:` is
reported as failed and left verbatim by the `src/gitmoji.rs` variant,
while the `src/main.rs` variant exits 1. -/
theorem claim_C5_witness :
    (replace_gitmoji_mod (fun _ => []) (str ":bug: fix")).failures = [str ":bug:"] ∧
    (replace_gitmoji_mod (fun _ => []) (str ":bug: fix")).message = str ":bug: fix" ∧
    ∃ tr, replace_gitmoji_main (fun _ => []) (str ":bug: fix") = .error tr ∧
      Effect.processExit 1 ∈ tr := by
  obtain ⟨h1, h2, h3⟩ :=
    claim_C5_unresolved_tags (fun _ => []) (str ":bug: fix") (str ":bug:") []
  refine ⟨?_, h2 (by decide), h3 (by decide) rfl⟩
  rw [h1]
  decide

/-- C5 counterexample: the claim that an unresolved tag never terminates
the process is false for the `src/main.rs` code path: a commit run whose
generated message contains `:bug:` and whose gitmoji lookup writes nothing
to stdout exits with code 1 during substitution. -/
theorem claim_C5_counterexample :
    (commit_workflow ⟨str "diff --git a b\n+ fix", true, none,
        ⟨200, [], [], str ":bug: fix null check"⟩, fun _ => [],
        true, true, true, true, true, [], []⟩).exitCode = 1 ∧
    Effect.processExit 1 ∈ (commit_workflow ⟨str "diff --git a b\n+ fix", true, none,
        ⟨200, [], [], str ":bug: fix null check"⟩, fun _ => [],
        true, true, true, true, true, [], []⟩).trace := by
  decide

/-- C6 (amended): tag substitution invokes the external lookup once per
match occurrence (so a tag occurring twice is looked up twice, not once
per distinct value), and a resolved tag is replaced at every occurrence by
one global replace: when the scanner finds the same tag twice and it
resolves to a glyph with no tag-class characters, the result is the single
global replacement of that tag by the glyph. -/
theorem claim_C6_lookup_per_occurrence (oracle : List Char → List Char)
    (m t g : List Char) :
    (replace_gitmoji_mod oracle m).calls = scanTags m ∧
    (scanTags m = [t, t] → (oracle t).isEmpty = false → trimChars (oracle t) = g →
      g ≠ [] → (∀ c ∈ g, tagClass c = false) →
      (replace_gitmoji_mod oracle m).message = replaceAll m t g) := by
  refine ⟨replace_gitmoji_mod_calls oracle m, ?_⟩
  intro hscan hout htrim hg hgP
  have ht : t ∈ scanTags m := by rw [hscan]; exact List.mem_cons_self _ _
  obtain ⟨htne, htP⟩ := scanTags_tagClass ht
  have hge : g.isEmpty = false := by
    cases g
    · exact absurd rfl hg
    · rfl
  unfold replace_gitmoji_mod
  rw [hscan]
  simp only [List.isEmpty_cons, Bool.false_eq_true, if_false, gitmojiLoopSkip,
    hout, htrim, hge, if_false]
  have hno : containsSeq t (replaceAll m t g) = false :=
    replaceAll_no_occurrence tagClass htP hgP htne hg
  rw [replaceAll_of_not_contains hno]

/-- C6 witness: on a text containing `:a:` twice with a resolving lookup,
the lookup is called once per occurrence and both occurrences are
replaced. -/
theorem claim_C6_witness :
    (replace_gitmoji_mod (fun _ => str "**") (str ":a: and :a:")).calls =
      scanTags (str ":a: and :a:") ∧
    (replace_gitmoji_mod (fun _ => str "**") (str ":a: and :a:")).message =
      replaceAll (str ":a: and :a:") (str ":a:") (str "**") := by
  obtain ⟨h1, h2⟩ := claim_C6_lookup_per_occurrence (fun _ => str "**")
    (str ":a: and :a:") (str ":a:") (str "**")
  exact ⟨h1, h2 (by decide) (by decide) (by decide) (by decide) (by decide)⟩

/-- C6 counterexample: the claim that the lookup runs exactly once per
distinct tag value is false: a text in which the single distinct tag `:a:`
occurs twice produces two lookup invocations. -/
theorem claim_C6_counterexample :
    List.dedup (scanTags (str ":a: and :a:")) = [str ":a:"] ∧
    List.count (str ":a:")
      (replace_gitmoji_mod (fun _ => str "**") (str ":a: and :a:")).calls = 2 := by
  decide

/-- C9 counterexample: the claim that the user message ends with the OS
hint is false: on Linux with request "list files" the hint is followed by
a fixed terminator, so the message does not end with " (on Linux)" — in
either prompt-construction variant. -/
theorem claim_C9_counterexample :
    suffixOfB (hint_os .linux) (get_cmd_user_prompt .linux (str "list files")) = false ∧
    suffixOfB (hint_os .linux) ((build_cmd_prompt .linux (str "list files")).2) = false := by
  decide

/-- C9 (amended): the command-mode user message is the request text,
immediately followed by the fixed OS-hint suffix for the detected OS
(empty on an unrecognized OS), followed by a fixed template terminator
(":\n" in `src/prompts.rs`; ":\n" plus a bash code fence in
`src/main.rs`); so the message ends with the hint-plus-terminator, not
with the hint itself. -/
theorem claim_C9_hint_position (os : TargetOS) (p : List Char) :
    get_cmd_user_prompt os p = p ++ hint_os os ++ str ":\n" ∧
    (build_cmd_prompt os p).2 = p ++ hint_os os ++ str ":\n```bash\n#!/bin/bash\n" ∧
    suffixOfB (hint_os os ++ str ":\n") (get_cmd_user_prompt os p) = true ∧
    hint_os .other = [] := by
  refine ⟨rfl, rfl, ?_, rfl⟩
  unfold get_cmd_user_prompt
  rw [List.append_assoc]
  exact suffixOfB_append_self _ _

/-- C8 counterexample: the claim that commit mode sends a strictly larger
default token budget than command mode is false: with no override, both
modes send max_tokens = 100 (the shared `MAX_TOKENS` default). -/
theorem claim_C8_counterexample :
    sentMaxTokens (commit_workflow ⟨str "diff --git\n+ x", false, none,
        ⟨200, [], [], str "fix: x"⟩, fun _ => [], true, true, true, true, true, [], []⟩) =
      some 100 ∧
    sentMaxTokens (command_run_workflow .linux ⟨[str "list"], false, none,
        ⟨200, [], str "ls", []⟩, true, true, true, [], []⟩) = some 100 := by
  decide

/-- C8 (amended): with no operator token-limit override, both command mode
and commit mode send the same default `MAX_TOKENS` (= 100) in their
completion request; the commit-mode value is not distinct from nor larger
than the command-mode value. -/
theorem claim_C8_same_default (os : TargetOS) (inp : CmdInputs) (inp' : CommitInputs)
    (h1 : inp.tokenLimit = none) (h2 : inp'.tokenLimit = none)
    (h3 : inp'.diffStdout ≠ []) :
    sentMaxTokens (command_run_workflow os inp) = some MAX_TOKENS ∧
    sentMaxTokens (commit_workflow inp') = some MAX_TOKENS := by
  constructor
  · unfold command_run_workflow runPhaseCmd
    rw [h1]
    simp only [Option.getD_none]
    split_ifs <;> simp [sentMaxTokens, List.findSome?]
  · unfold commit_workflow
    rw [h2]
    have hne : inp'.diffStdout.isEmpty = false := by
      cases hh : inp'.diffStdout
      · exact absurd hh h3
      · rfl
    simp only [hne, Bool.false_eq_true, if_false, Option.getD_none]
    split_ifs
    · simp [sentMaxTokens, List.findSome?]
    · simp [sentMaxTokens, List.findSome?]
    · cases hrg : replace_gitmoji_main inp'.oracle (trimChars inp'.resp.messageContent) with
      | error tr => simp [sentMaxTokens, List.findSome?]
      | ok p =>
        obtain ⟨msg', tr⟩ := p
        simp only [sentMaxTokens]
        rw [commitGates_trace_shift]
        simp [List.findSome?]
    · simp only [sentMaxTokens]
      rw [commitGates_trace_shift]
      simp [List.findSome?]

/-- C8 witness: concrete runs of both modes with no override each send
the default of 100 tokens. -/
theorem claim_C8_witness :
    sentMaxTokens (command_run_workflow .linux ⟨[str "x"], false, none,
        ⟨200, [], str "ls", []⟩, true, true, true, [], []⟩) = some MAX_TOKENS ∧
    sentMaxTokens (commit_workflow ⟨str "d\n+ x", false, none,
        ⟨200, [], [], str "fix"⟩, fun _ => [], true, true, true, true, true, [], []⟩) =
      some MAX_TOKENS :=
  claim_C8_same_default .linux _ _ rfl rfl (by decide)

/-- C3: for every empty staged diff, commit mode terminates with exit
status 0 and never issues a completion request. -/
theorem claim_C3_empty_diff (inp : CommitInputs) (h : inp.diffStdout = []) :
    (commit_workflow inp).exitCode = 0 ∧
    ∀ tok sys usr, Effect.apiRequest tok sys usr ∉ (commit_workflow inp).trace := by
  unfold commit_workflow
  have hmt : inp.diffStdout.isEmpty = true := by rw [h]; rfl
  simp [hmt]

/-- C3 witness: a run with an empty staged diff exits 0 without a request. -/
theorem claim_C3_witness :
    (commit_workflow ⟨[], false, none, ⟨200, [], [], str "fix"⟩, fun _ => [],
        true, true, true, true, true, [], []⟩).exitCode = 0 ∧
    ∀ tok sys usr, Effect.apiRequest tok sys usr ∉
      (commit_workflow ⟨[], false, none, ⟨200, [], [], str "fix"⟩, fun _ => [],
        true, true, true, true, true, [], []⟩).trace :=
  claim_C3_empty_diff _ rfl

/-- C4: for every 2xx response, the command-mode artifact is exactly the
response's content payload with leading and trailing whitespace trimmed
(`choices[0].text` in the `src/main.rs` command workflow,
`choices[0].message.content` in `ChatCompletions::run`), and command mode
applies no transformation besides that trim: the displayed string and any
executed string equal the trimmed payload. -/
theorem claim_C4_trim_only (os : TargetOS) (inp : CmdInputs)
    (h1 : 200 ≤ inp.resp.status) (h2 : inp.resp.status ≤ 299) :
    (command_run_workflow os inp).artifact = some (trimChars inp.resp.choice0Text) ∧
    Effect.display (trimChars inp.resp.choice0Text) ∈ (command_run_workflow os inp).trace ∧
    (∀ c, Effect.bashExec c ∈ (command_run_workflow os inp).trace →
      c = trimChars inp.resp.choice0Text) ∧
    chat_completions_run inp.resp = .ok (trimChars inp.resp.messageContent) := by
  have hn4 : ¬(400 ≤ inp.resp.status ∧ inp.resp.status ≤ 499) := by omega
  have hn5 : ¬(500 ≤ inp.resp.status ∧ inp.resp.status ≤ 599) := by omega
  refine ⟨?_, ?_, ?_, ?_⟩
  · unfold command_run_workflow runPhaseCmd
    simp only [if_neg hn4, if_neg hn5]
    split_ifs <;> rfl
  · unfold command_run_workflow runPhaseCmd
    simp only [if_neg hn4, if_neg hn5]
    split_ifs <;> simp
  · intro c hc
    unfold command_run_workflow runPhaseCmd at hc
    simp only [if_neg hn4, if_neg hn5] at hc
    split_ifs at hc <;> simp at hc <;> exact hc
  · unfold chat_completions_run
    simp only [if_neg hn4, if_neg hn5]

/-- C4 witness: a concrete 2xx response with padded content is trimmed and
nothing else. -/
theorem claim_C4_witness :
    (command_run_workflow .linux ⟨[str "list"], false, none,
        ⟨200, [], str "  ls -la \n", str " fix: x "⟩, true, true, true, [], []⟩).artifact =
      some (trimChars (str "  ls -la \n")) ∧
    Effect.display (trimChars (str "  ls -la \n")) ∈
      (command_run_workflow .linux ⟨[str "list"], false, none,
        ⟨200, [], str "  ls -la \n", str " fix: x "⟩, true, true, true, [], []⟩).trace ∧
    (∀ c, Effect.bashExec c ∈ (command_run_workflow .linux ⟨[str "list"], false, none,
        ⟨200, [], str "  ls -la \n", str " fix: x "⟩, true, true, true, [], []⟩).trace →
      c = trimChars (str "  ls -la \n")) ∧
    chat_completions_run ⟨200, [], str "  ls -la \n", str " fix: x "⟩ =
      .ok (trimChars (str " fix: x ")) :=
  claim_C4_trim_only .linux _ (by decide) (by decide)

/-- C2: a 4xx completion response surfaces the response body's
`error.message` text verbatim (inside the fixed `API error: "…"` wrapper)
and terminates with exit code 1; a 5xx surfaces the numeric status code
and also terminates with exit code 1; in both cases no artifact is
produced and no further step runs (no gate is asked and nothing reaches
the shell) — in command mode and in commit mode alike. -/
theorem claim_C2_api_error_handling :
    (∀ (os : TargetOS) (inp : CmdInputs), 400 ≤ inp.resp.status → inp.resp.status ≤ 499 →
      (command_run_workflow os inp).exitCode = 1 ∧
      (command_run_workflow os inp).artifact = none ∧
      Effect.display (apiClientErrorMsg inp.resp.errorMessage) ∈
        (command_run_workflow os inp).trace ∧
      apiClientErrorMsg inp.resp.errorMessage =
        str "API error: \x22" ++ inp.resp.errorMessage ++ str "\x22" ∧
      (∀ c, Effect.bashExec c ∉ (command_run_workflow os inp).trace) ∧
      (∀ q, Effect.askQuestion q ∉ (command_run_workflow os inp).trace)) ∧
    (∀ (os : TargetOS) (inp : CmdInputs), 500 ≤ inp.resp.status → inp.resp.status ≤ 599 →
      (command_run_workflow os inp).exitCode = 1 ∧
      (command_run_workflow os inp).artifact = none ∧
      Effect.display (apiServerErrorMsg inp.resp.status) ∈
        (command_run_workflow os inp).trace ∧
      apiServerErrorMsg inp.resp.status =
        str "OpenAI is currently experiencing problems. Status code: " ++
          str (toString inp.resp.status) ∧
      (∀ c, Effect.bashExec c ∉ (command_run_workflow os inp).trace) ∧
      (∀ q, Effect.askQuestion q ∉ (command_run_workflow os inp).trace)) ∧
    (∀ inp : CommitInputs, inp.diffStdout ≠ [] →
      400 ≤ inp.resp.status → inp.resp.status ≤ 499 →
      (commit_workflow inp).exitCode = 1 ∧
      (commit_workflow inp).artifact = none ∧
      Effect.display (apiClientErrorMsg inp.resp.errorMessage) ∈ (commit_workflow inp).trace ∧
      (∀ c, Effect.bashExec c ∉ (commit_workflow inp).trace) ∧
      (∀ q, Effect.askQuestion q ∉ (commit_workflow inp).trace)) ∧
    (∀ inp : CommitInputs, inp.diffStdout ≠ [] →
      500 ≤ inp.resp.status → inp.resp.status ≤ 599 →
      (commit_workflow inp).exitCode = 1 ∧
      (commit_workflow inp).artifact = none ∧
      Effect.display (apiServerErrorMsg inp.resp.status) ∈ (commit_workflow inp).trace ∧
      (∀ c, Effect.bashExec c ∉ (commit_workflow inp).trace) ∧
      (∀ q, Effect.askQuestion q ∉ (commit_workflow inp).trace)) := by
  refine ⟨?_, ?_, ?_, ?_⟩
  · intro os inp hs1 hs2
    unfold command_run_workflow
    rw [if_pos ⟨hs1, hs2⟩]
    refine ⟨rfl, rfl, by simp, ?_, ?_, ?_⟩
    · simp [apiClientErrorMsg, List.append_assoc]
    · intro c
      simp
    · intro q
      simp
  · intro os inp hs1 hs2
    unfold command_run_workflow
    rw [if_neg (by omega), if_pos ⟨hs1, hs2⟩]
    refine ⟨rfl, rfl, by simp, rfl, ?_, ?_⟩
    · intro c
      simp
    · intro q
      simp
  · intro inp hne hs1 hs2
    unfold commit_workflow
    have hmt : inp.diffStdout.isEmpty = false := by
      cases hh : inp.diffStdout
      · exact absurd hh hne
      · rfl
    rw [if_neg (by simp [hmt]), if_pos ⟨hs1, hs2⟩]
    refine ⟨rfl, rfl, by simp, ?_, ?_⟩
    · intro c
      simp
    · intro q
      simp
  · intro inp hne hs1 hs2
    unfold commit_workflow
    have hmt : inp.diffStdout.isEmpty = false := by
      cases hh : inp.diffStdout
      · exact absurd hh hne
      · rfl
    rw [if_neg (by simp [hmt]), if_neg (by omega), if_pos ⟨hs1, hs2⟩]
    refine ⟨rfl, rfl, by simp, ?_, ?_⟩
    · intro c
      simp
    · intro q
      simp

/-- C2 witness: a concrete 404 with an error message and a concrete 500
both exit 1 with no artifact and no shell or gate effects, in both
modes. -/
theorem claim_C2_witness :
    ((command_run_workflow .linux ⟨[str "x"], false, none,
        ⟨404, str "model not found", [], []⟩, true, true, true, [], []⟩).exitCode = 1 ∧
      Effect.display (apiClientErrorMsg (str "model not found")) ∈
        (command_run_workflow .linux ⟨[str "x"], false, none,
          ⟨404, str "model not found", [], []⟩, true, true, true, [], []⟩).trace) ∧
    ((commit_workflow ⟨str "d\n+ x", false, none, ⟨500, [], [], []⟩, fun _ => [],
        true, true, true, true, true, [], []⟩).exitCode = 1 ∧
      Effect.display (apiServerErrorMsg 500) ∈
        (commit_workflow ⟨str "d\n+ x", false, none, ⟨500, [], [], []⟩, fun _ => [],
          true, true, true, true, true, [], []⟩).trace) := by
  have h := claim_C2_api_error_handling
  refine ⟨?_, ?_⟩
  · obtain ⟨h1, h2, h3, h4, -, -⟩ := h.1 .linux
      ⟨[str "x"], false, none, ⟨404, str "model not found", [], []⟩, true, true, true, [], []⟩
      (by decide) (by decide)
    exact ⟨h1, h3⟩
  · obtain ⟨h1, h2, h3, -, -⟩ := h.2.2.2
      ⟨str "d\n+ x", false, none, ⟨500, [], [], []⟩, fun _ => [],
        true, true, true, true, true, [], []⟩
      (by decide) (by decide) (by decide)
    exact ⟨h1, h3⟩

/-- C1: the generated artifact is never passed to the shell for execution
without the relevant affirmative gates: in command mode any `bash -c`
execution implies the force flag or a yes at the run gate; in commit mode
execution of the commit invocation implies a yes at all three gates (the
force flag plays no role there), so a no at any gate means the artifact is
never executed. -/
theorem claim_C1_gated_execution :
    (∀ (os : TargetOS) (inp : CmdInputs) (cmd : List Char),
      Effect.bashExec cmd ∈ (command_run_workflow os inp).trace →
      inp.force = true ∨ inp.confirmRun = true) ∧
    (∀ (inp : CommitInputs) (m : List Char),
      Effect.bashExec (commitCmdStr m) ∈ (commit_workflow inp).trace →
      inp.acceptCommit = true ∧ inp.generateCmd = true ∧ inp.shouldRun = true) := by
  constructor
  · intro os inp cmd h
    unfold command_run_workflow at h
    split_ifs at h with h4 h5 hf hc
    · simp at h
    · simp at h
    · exact Or.inl hf
    · exact Or.inr hc
    · simp at h
  · intro inp m h
    unfold commit_workflow at h
    split_ifs at h with hd h4 h5 hg
    · simp at h
    · simp at h
    · simp at h
    · dsimp only [] at h
      rcases hrg : replace_gitmoji_main inp.oracle (trimChars inp.resp.messageContent)
        with tr | p
      · rw [hrg] at h
        simp only [List.mem_append] at h
        rcases h with h | h
        · simp at h
        · unfold replace_gitmoji_main at hrg
          split_ifs at hrg with hsc
          rcases gitmojiLoop_error_effects inp.oracle _ _ _ _ hrg _ h
            with hmem | hbe | hdisp | hexit
          · exact absurd hmem (List.not_mem_nil _)
          · obtain ⟨t', ht'⟩ := hbe
            have heq : commitCmdStr m = gitmojiCmd t' := by
              injection ht'
            exact absurd heq.symm (gitmojiCmd_ne_commitCmdStr t' m)
          · obtain ⟨x, hx⟩ := hdisp
            cases hx
          · cases hexit
      · obtain ⟨msg', tr⟩ := p
        rw [hrg] at h
        simp only [] at h
        rcases commitGates_exec_mem h with hpre | hyes
        · simp only [List.mem_append] at hpre
          rcases hpre with h1 | h1
          · simp at h1
          · unfold replace_gitmoji_main at hrg
            split_ifs at hrg with hsc
            · injection hrg with hrg2
              injection hrg2 with ha hb
              rw [← hb] at h1
              exact absurd h1 (List.not_mem_nil _)
            · rcases gitmojiLoop_ok_effects inp.oracle _ _ _ _ _ hrg _ h1 with hmem | hbe
              · exact absurd hmem (List.not_mem_nil _)
              · obtain ⟨t', ht'⟩ := hbe
                have heq : commitCmdStr m = gitmojiCmd t' := by
                  injection ht'
                exact absurd heq.symm (gitmojiCmd_ne_commitCmdStr t' m)
        · exact hyes
    · dsimp only [] at h
      rcases commitGates_exec_mem h with hpre | hyes
      · simp at hpre
      · exact hyes

/-- C1 witness: concrete runs in which an execution did happen, with the
gate answers it implies. -/
theorem claim_C1_witness :
    ((⟨[str "list"], false, none, ⟨200, [], str "ls", []⟩, true, true, true, [], []⟩ :
        CmdInputs).force = true ∨
      (⟨[str "list"], false, none, ⟨200, [], str "ls", []⟩, true, true, true, [], []⟩ :
        CmdInputs).confirmRun = true) ∧
    ((⟨str "d\n+ x", false, none, ⟨200, [], [], str "fix"⟩, fun _ => [],
        true, true, true, true, true, [], []⟩ : CommitInputs).acceptCommit = true ∧
      (⟨str "d\n+ x", false, none, ⟨200, [], [], str "fix"⟩, fun _ => [],
        true, true, true, true, true, [], []⟩ : CommitInputs).generateCmd = true ∧
      (⟨str "d\n+ x", false, none, ⟨200, [], [], str "fix"⟩, fun _ => [],
        true, true, true, true, true, [], []⟩ : CommitInputs).shouldRun = true) :=
  ⟨claim_C1_gated_execution.1 .linux _ (trimChars (str "ls")) (by decide),
    claim_C1_gated_execution.2 _ (str "fix") (by decide)⟩

/-- C7: the shell command executed in commit mode is the literal
concatenation `git commit -m '` ++ message ++ `'` with no escaping or
quoting transformation, so a message containing a single quote changes the
boundary of the quoted argument: a shell parsing the command reads back
exactly the message when it contains no single quote, and a strictly
different argument when it does. -/
theorem claim_C7_literal_quoting :
    (∀ (inp : CommitInputs) (m : List Char),
      (commit_workflow inp).artifact = some m →
      inp.acceptCommit = true → inp.generateCmd = true → inp.shouldRun = true →
      Effect.bashExec (commitCmdStr m) ∈ (commit_workflow inp).trace) ∧
    (∀ m : List Char, commitCmdStr m = str "git commit -m " ++ (sqc :: (m ++ [sqc]))) ∧
    (∀ m : List Char, (∀ c ∈ m, notSq c = true) → sqArg (commitCmdStr m) = m) ∧
    (∀ m : List Char, sqc ∈ m → sqArg (commitCmdStr m) ≠ m) := by
  refine ⟨?_, fun m => rfl, fun m h => sqArg_commitCmdStr_of_no_quote h,
    fun m h => sqArg_commitCmdStr_of_quote h⟩
  intro inp m hart ha hg' hr
  unfold commit_workflow at hart ⊢
  split_ifs at hart ⊢ with hd h4 h5 hgm
  · dsimp only [] at hart ⊢
    rcases hrg : replace_gitmoji_main inp.oracle (trimChars inp.resp.messageContent)
      with tr | p
    · rw [hrg] at hart
      simp only [] at hart
      cases hart
    · obtain ⟨msg', tr⟩ := p
      rw [hrg] at hart
      simp only [] at hart
      rw [commitGates_artifact] at hart
      injection hart with hart2
      rw [← hart2]
      exact commitGates_exec_of_yes _ _ _ ha hg' hr
  · dsimp only [] at hart ⊢
    rw [commitGates_artifact] at hart
    injection hart with hart2
    rw [← hart2]
    exact commitGates_exec_of_yes _ _ _ ha hg' hr

/-- C7 witness: a concrete accepted message reaches the shell as the
literal interpolation, a quote-free message round-trips through shell
parsing, and a message containing a quote does not. -/
theorem claim_C7_witness :
    Effect.bashExec (commitCmdStr (trimChars (str "fix: x"))) ∈
      (commit_workflow ⟨str "d\n+ x", false, none, ⟨200, [], [], str "fix: x"⟩,
        fun _ => [], true, true, true, true, true, [], []⟩).trace ∧
    sqArg (commitCmdStr (str "fix: x")) = str "fix: x" ∧
    sqArg (commitCmdStr (str "its" ++ [sqc] ++ str "s quote")) ≠
      str "its" ++ [sqc] ++ str "s quote" := by
  refine ⟨claim_C7_literal_quoting.1 _ _ (by decide) rfl rfl rfl, ?_, ?_⟩
  · exact claim_C7_literal_quoting.2.2.1 _ (by decide)
  · exact claim_C7_literal_quoting.2.2.2 _ (by decide)

end PlzCli
